import Mathlib

/-!
Verification of the training-orchestration core of RefractAI-Multimodal
(`src/train.py`): patch/unpatch tensor transform, timestep override policy,
moving-average loss windows, latent-cache build short-circuit, checkpoint
resume and the epoch/step loop.  Tensors are embedded as index functions
into ℚ; the loop is embedded as explicit state passing over the global
step counter.
-/

namespace RefractTrain

/-- Modelled from the spec: `patchify(latents, patch_size)` from the missing
`data` module.  Input is a 4D tensor `[B, C, H, W]` (embedded as an index
function), output the 3D tensor `[B, (H/p)·(W/p), C·p·p]` where row
`n = py·(W/p) + px` holds patch `(py, px)` flattened channel-major:
flat index `f = c·p·p + dy·p + dx`.  `wp = W / p` is the patch-grid width. -/
def patchify (x : Nat → Nat → Nat → Nat → ℚ) (p wp : Nat) :
    Nat → Nat → Nat → ℚ :=
  fun b n f =>
    x b (f / (p * p)) ((n / wp) * p + (f % (p * p)) / p) ((n % wp) * p + f % p)

/-- Modelled from the spec: `unpatchify(patches, patch_size, B, C, H, W)` from
the missing `data` module, the exact inverse reshape of `patchify` given
matching shape parameters. -/
def unpatchify (y : Nat → Nat → Nat → ℚ) (p wp : Nat) :
    Nat → Nat → Nat → Nat → ℚ :=
  fun b c h w =>
    y b ((h / p) * wp + w / p) (c * (p * p) + (h % p) * p + w % p)

/-- Modelled from the spec: the output shape `[B, (H/p)·(W/p), C·p·p]` of
`patchify` on an input of shape `[B, C, H, W]`. -/
def patchifyShape (B C H W p : Nat) : Nat × Nat × Nat :=
  (B, (H / p) * (W / p), C * (p * p))

/-- `train.py` line 188: the timestep override condition
`step_counter % N_inference == 0 or step_counter % N_debug == 0`. -/
def overrideStep (step ndebug ninfer : Nat) : Bool :=
  step % ninfer == 0 || step % ndebug == 0

/-- `train.py` lines 186–190: per-sample timesteps for one step.  A uniform
draw per sample (`torch.rand`, embedded as the draw function `rand`), replaced
by the constant 0.7 (`torch.full`) on override steps. -/
def timesFor (step ndebug ninfer bsz : Nat) (rand : Nat → ℚ) : List ℚ :=
  if overrideStep step ndebug ninfer then
    List.replicate bsz (7 / 10 : ℚ)
  else
    (List.range bsz).map rand

/-- `train.py` line 56: `N_loss_window = 100`. -/
def N_loss_window : Nat := 100

/-- `train.py` lines 202–208: append the new loss value to the window, then
`pop(0)` the oldest entry if the length exceeds `N_loss_window`. -/
def recordLoss (w : List ℚ) (v : ℚ) : List ℚ :=
  let w' := w ++ [v]
  if N_loss_window < w'.length then w'.drop 1 else w'

/-- The window contents after recording a sequence of values into an
initially empty window. -/
def recordAll (vs : List ℚ) : List ℚ :=
  List.foldl recordLoss [] vs

/-- `train.py` lines 211–212: `sum(window) / len(window)`; `none` models the
`ZeroDivisionError` raised on an empty window. -/
def lossAverage (w : List ℚ) : Option ℚ :=
  if w.length = 0 then none else some (w.sum / (w.length : ℚ))

/-- `train.py` lines 202–212 in step order: record both loss components,
then compute both moving averages from the updated windows. -/
def lossStep (tw dw : List ℚ) (tv dv : ℚ) :
    (List ℚ × List ℚ) × (Option ℚ × Option ℚ) :=
  let tw' := recordLoss tw tv
  let dw' := recordLoss dw dv
  ((tw', dw'), (lossAverage tw', lossAverage dw'))

/-- `train.py` line 111: the shard filename `f'batch_{batch_size}_{i}.pt'`. -/
def shardName (bs i : Nat) : String :=
  "batch_" ++ toString bs ++ "_" ++ toString i ++ ".pt"

/-- Writing one file into a directory (embedded as an association list of
filename/content pairs): overwrite in place if the name exists, else append. -/
def fsWrite (dir : List (String × List ℚ)) (nm : String) (content : List ℚ) :
    List (String × List ℚ) :=
  if dir.any (fun e => e.1 == nm) then
    dir.map (fun e => if e.1 == nm then (nm, content) else e)
  else
    dir ++ [(nm, content)]

/-- `train.py` lines 104–114: the cache build.  If the force flag is set or
the cache directory listing is empty, iterate the raw batches in order,
encode each (`vae_encode_batch`, embedded as the function `encode`) and write
one shard per batch index, counting encode invocations; otherwise skip
entirely.  The directory itself always exists (`os.makedirs` on line 102). -/
def cacheStep (force : Bool) (dir : List (String × List ℚ))
    (raws : List (List ℚ)) (encode : List ℚ → List ℚ) (bs : Nat) :
    List (String × List ℚ) × Nat :=
  if force || dir.length == 0 then
    raws.enum.foldl
      (fun acc ib => (fsWrite acc.1 (shardName bs ib.1) (encode ib.2), acc.2 + 1))
      (dir, 0)
  else
    (dir, 0)

/-- The training state that `save_checkpoint`/`resume_checkpoint` persist:
model parameters, optimizer state, scheduler state, epoch and step counter
(`train.py` lines 131–136 and 237).  Opaque tensor blobs are embedded as
rational lists. -/
structure TrainingState where
  modelParams : List ℚ
  optState : List ℚ
  schedState : List ℚ
  epoch : Nat
  step : Nat
  deriving DecidableEq, Repr

/-- A checkpoint record: the training state plus the last observed loss. -/
structure Checkpoint where
  modelParams : List ℚ
  optState : List ℚ
  schedState : List ℚ
  epoch : Nat
  step : Nat
  lastLoss : ℚ
  deriving DecidableEq, Repr

/-- Modelled from the spec: `save_checkpoint` from the missing `data` module
serializes the training state plus the last loss value as a single unit. -/
def save_checkpoint (s : TrainingState) (loss : ℚ) : Checkpoint :=
  ⟨s.modelParams, s.optState, s.schedState, s.epoch, s.step, loss⟩

/-- Modelled from the spec: `resume_checkpoint` from the missing `data`
module restores model parameters, optimizer state, scheduler state, epoch
and step counter exactly from the checkpoint record. -/
def resume_checkpoint (c : Checkpoint) : TrainingState :=
  ⟨c.modelParams, c.optState, c.schedState, c.epoch, c.step⟩

/-- `train.py` lines 172–174: one epoch's inner loop over `batches` batches,
incrementing the global step counter once per batch.  Returns the final
counter and the list of counter values observed inside the steps, in order. -/
def runEpoch (sc : Nat) : Nat → Nat × List Nat
  | 0 => (sc, [])
  | Nat.succ b =>
    let sc1 := sc + 1
    let r := runEpoch sc1 b
    (r.1, sc1 :: r.2)

/-- The outer loop over a number of remaining epochs, threading the step
counter across epoch boundaries without resetting it. -/
def runEpochsFrom : Nat → Nat → Nat → Nat × List Nat
  | 0, _, sc => (sc, [])
  | Nat.succ e, batches, sc =>
    let r1 := runEpoch sc batches
    let r2 := runEpochsFrom e batches r1.1
    (r2.1, r1.2 ++ r2.2)

/-- `train.py` line 168: `for epoch in range(start_epoch, num_epochs)` with
the per-step counter increments of lines 173–174.  Returns the final step
counter and the sequence of step-counter values used by the steps. -/
def runTraining (startEpoch numEpochs batches sc : Nat) : Nat × List Nat :=
  runEpochsFrom (numEpochs - startEpoch) batches sc

/-! ### Helper lemmas -/

theorem unpatchify_patchify_eq (x : Nat → Nat → Nat → Nat → ℚ) (p wp b c h w : Nat)
    (hp : 0 < p) (hw : w < wp * p) :
    unpatchify (patchify x p wp) p wp b c h w = x b c h w := by
  have hpp : 0 < p * p := Nat.mul_pos hp hp
  have hhp : h % p < p := Nat.mod_lt _ hp
  have hwp : w % p < p := Nat.mod_lt _ hp
  have hr : (h % p) * p + w % p < p * p := by
    have h1 : (h % p) * p + w % p < (h % p + 1) * p := by
      rw [Nat.succ_mul]; omega
    exact lt_of_lt_of_le h1 (Nat.mul_le_mul_right p hhp)
  have hwp0 : 0 < wp := by
    cases wp with
    | zero => simp at hw
    | succ k => exact Nat.succ_pos k
  have hwdp : w / p < wp := (Nat.div_lt_iff_lt_mul hp).mpr hw
  have ef : c * (p * p) + (h % p) * p + w % p
      = p * p * c + ((h % p) * p + w % p) := by ring
  have eA : (c * (p * p) + (h % p) * p + w % p) / (p * p) = c := by
    rw [ef, Nat.mul_add_div hpp, Nat.div_eq_of_lt hr]
    omega
  have eB : (c * (p * p) + (h % p) * p + w % p) % (p * p) = (h % p) * p + w % p := by
    rw [ef, Nat.mul_add_mod, Nat.mod_eq_of_lt hr]
  have eC : (c * (p * p) + (h % p) * p + w % p) % p = w % p := by
    have e : c * (p * p) + (h % p) * p + w % p = w % p + (c * p + h % p) * p := by ring
    rw [e, Nat.add_mul_mod_self_right, Nat.mod_eq_of_lt hwp]
  have eD1 : ((h % p) * p + w % p) / p = h % p := by
    rw [Nat.add_comm, Nat.add_mul_div_right _ _ hp, Nat.div_eq_of_lt hwp]
    omega
  have eE1 : ((h / p) * wp + w / p) / wp = h / p := by
    rw [Nat.add_comm, Nat.add_mul_div_right _ _ hwp0, Nat.div_eq_of_lt hwdp]
    omega
  have eE2 : ((h / p) * wp + w / p) % wp = w / p := by
    rw [Nat.add_comm, Nat.add_mul_mod_self_right, Nat.mod_eq_of_lt hwdp]
  have eh : (h / p) * p + h % p = h := by
    rw [Nat.mul_comm]; exact Nat.div_add_mod h p
  have ew : (w / p) * p + w % p = w := by
    rw [Nat.mul_comm]; exact Nat.div_add_mod w p
  simp only [unpatchify, patchify]
  rw [eA, eB, eC, eD1, eE1, eE2, eh, ew]

theorem recordLoss_small (w : List ℚ) (v : ℚ) (h : w.length < N_loss_window) :
    recordLoss w v = w ++ [v] := by
  unfold recordLoss
  rw [if_neg]
  simp only [List.length_append, List.length_cons, List.length_nil]
  omega

theorem recordLoss_full (w : List ℚ) (v : ℚ) (h : w.length = N_loss_window) :
    recordLoss w v = (w ++ [v]).drop 1 := by
  unfold recordLoss
  rw [if_pos]
  simp only [List.length_append, List.length_cons, List.length_nil]
  omega

theorem foldl_recordLoss (vs : List ℚ) :
    ∀ w : List ℚ, w.length ≤ N_loss_window →
      List.foldl recordLoss w vs
        = (w ++ vs).drop (w.length + vs.length - N_loss_window) := by
  induction vs with
  | nil =>
    intro w hw
    simp only [List.foldl_nil, List.append_nil, List.length_nil, Nat.add_zero]
    rw [Nat.sub_eq_zero_of_le hw, List.drop_zero]
  | cons v t ih =>
    intro w hw
    simp only [List.foldl_cons, List.length_cons]
    rcases Nat.lt_or_ge w.length N_loss_window with hlt | hge
    · rw [recordLoss_small w v hlt, ih (w ++ [v]) (by simp; omega)]
      rw [List.append_assoc, List.singleton_append]
      congr 1
      simp only [List.length_append, List.length_cons, List.length_nil]
      omega
    · have hN : w.length = N_loss_window := le_antisymm hw hge
      have hlen1 : (1 : Nat) ≤ (w ++ [v]).length := by
        simp only [List.length_append, List.length_cons, List.length_nil]; omega
      rw [recordLoss_full w v hN,
        ih ((w ++ [v]).drop 1)
          (by simp only [List.length_drop, List.length_append,
                List.length_cons, List.length_nil]; omega)]
      rw [← List.drop_append_of_le_length hlen1, List.drop_drop,
        List.append_assoc, List.singleton_append]
      congr 1
      simp only [List.length_drop, List.length_append, List.length_cons,
        List.length_nil]
      omega

theorem recordAll_eq (vs : List ℚ) :
    recordAll vs = vs.drop (vs.length - N_loss_window) := by
  unfold recordAll
  rw [foldl_recordLoss vs [] (by simp [N_loss_window])]
  simp

theorem recordAll_length (vs : List ℚ) :
    (recordAll vs).length = min vs.length N_loss_window := by
  rw [recordAll_eq, List.length_drop]
  omega

theorem runEpoch_eq (b : Nat) :
    ∀ sc, runEpoch sc b = (sc + b, (List.range b).map (fun i => sc + i + 1)) := by
  induction b with
  | zero => intro sc; simp [runEpoch]
  | succ k ih =>
    intro sc
    simp only [runEpoch, ih (sc + 1)]
    refine Prod.ext ?_ ?_
    · simp; omega
    · simp only [List.range_succ_eq_map, List.map_cons, List.map_map]
      have e : ((fun i => sc + 1 + i + 1) : Nat → Nat)
          = (fun i => sc + i + 1) ∘ Nat.succ := by
        funext i; simp [Function.comp]; omega
      simp [e]

theorem runEpochsFrom_eq (e : Nat) :
    ∀ b sc, runEpochsFrom e b sc
      = (sc + e * b, (List.range (e * b)).map (fun i => sc + i + 1)) := by
  induction e with
  | zero => intro b sc; simp [runEpochsFrom]
  | succ k ih =>
    intro b sc
    simp only [runEpochsFrom, runEpoch_eq, ih]
    refine Prod.ext ?_ ?_
    · simp; ring
    · have em : (k + 1) * b = b + k * b := by ring
      simp only [em, List.range_add, List.map_append, List.map_map]
      congr 1
      have e2 : ((fun i => sc + b + i + 1) : Nat → Nat)
          = (fun i => sc + i + 1) ∘ (fun i => b + i) := by
        funext i; simp [Function.comp]; omega
      simp [e2]

theorem runTraining_eq (se ne b sc : Nat) :
    runTraining se ne b sc
      = (sc + (ne - se) * b,
         (List.range ((ne - se) * b)).map (fun i => sc + i + 1)) := by
  unfold runTraining
  exact runEpochsFrom_eq (ne - se) b sc

theorem N_loss_window_eq : N_loss_window = 100 := rfl

theorem recordLoss_length_pos (w : List ℚ) (v : ℚ) :
    0 < (recordLoss w v).length := by
  unfold recordLoss
  by_cases h : N_loss_window < (w ++ [v]).length
  · rw [if_pos h]
    simp only [List.length_append, List.length_cons, List.length_nil] at h
    simp only [List.length_drop, List.length_append, List.length_cons,
      List.length_nil]
    rw [N_loss_window_eq] at h
    omega
  · rw [if_neg h]
    simp

theorem cacheStep_skip (dir : List (String × List ℚ)) (raws : List (List ℚ))
    (encode : List ℚ → List ℚ) (bs : Nat) (hne : dir ≠ []) :
    cacheStep false dir raws encode bs = (dir, 0) := by
  have h0 : dir.length ≠ 0 := fun h => hne (List.length_eq_zero.mp h)
  simp [cacheStep, h0]

theorem cacheFold_count (bs : Nat) (encode : List ℚ → List ℚ)
    (l : List (Nat × List ℚ)) :
    ∀ (d : List (String × List ℚ)) (k : Nat),
      (l.foldl
        (fun acc ib => (fsWrite acc.1 (shardName bs ib.1) (encode ib.2), acc.2 + 1))
        (d, k)).2 = k + l.length := by
  induction l with
  | nil => intro d k; simp
  | cons x t ih =>
    intro d k
    rw [List.foldl_cons, ih]
    simp only [List.length_cons]
    omega

/-! ### Claim theorems -/

/-- Claim C1: for every 4D tensor with H and W exactly divisible by the patch
size, `unpatchify` applied to `patchify` restores the tensor element-for-element
(every in-range index; `wp = W / p` is the patch-grid width), and with
patch size 2 an input of shape [1,4,32,32] patchifies to shape [1,256,16]. -/
theorem patchify_unpatchify_roundtrip (p wp : Nat)
    (x : Nat → Nat → Nat → Nat → ℚ) (hp : 0 < p) :
    (∀ b c h w, w < wp * p →
        unpatchify (patchify x p wp) p wp b c h w = x b c h w)
    ∧ patchifyShape 1 4 32 32 2 = (1, 256, 16) := by
  refine ⟨fun b c h w hw => unpatchify_patchify_eq x p wp b c h w hp hw, ?_⟩
  decide

/-- Witness for C1 at p = 2, wp = 16 on a concrete tensor and index. -/
theorem patchify_unpatchify_roundtrip_witness :
    unpatchify (patchify (fun b c h w => (b : ℚ) + 2 * c + 3 * h + 7 * w) 2 16)
        2 16 0 1 3 5
      = (fun b c h w => (b : ℚ) + 2 * c + 3 * h + 7 * w) 0 1 3 5 :=
  (patchify_unpatchify_roundtrip 2 16 _ (by decide)).1 0 1 3 5 (by decide)

/-- Claim C2: on steps where the global counter is a multiple of the debug or
inference cadence, every sample's timestep is exactly 0.7; otherwise the
samples are the independent per-sample draws, all in [0,1); and with debug
cadence 20 (inference cadence 200) the overridden steps among 1..40 are
exactly 20 and 40. -/
theorem timestep_override_policy (step nd ni bsz : Nat) (rand : Nat → ℚ)
    (hrand : ∀ i, 0 ≤ rand i ∧ rand i < 1) :
    (overrideStep step nd ni = true →
        timesFor step nd ni bsz rand = List.replicate bsz (7 / 10 : ℚ))
    ∧ (overrideStep step nd ni = false →
        timesFor step nd ni bsz rand = (List.range bsz).map rand
        ∧ ∀ t ∈ timesFor step nd ni bsz rand, 0 ≤ t ∧ t < 1)
    ∧ ((List.range 40).map (fun s => s + 1)).filter
        (fun s => overrideStep s 20 200) = [20, 40] := by
  refine ⟨?_, ?_, ?_⟩
  · intro h; simp [timesFor, h]
  · intro h
    have he : timesFor step nd ni bsz rand = (List.range bsz).map rand := by
      simp [timesFor, h]
    refine ⟨he, ?_⟩
    intro t ht
    rw [he, List.mem_map] at ht
    obtain ⟨i, _, rfl⟩ := ht
    exact hrand i
  · decide

/-- Witness for C2 at an override step (step 20, cadences 20 and 200). -/
theorem timestep_override_policy_witness :
    timesFor 20 20 200 2 (fun _ => (1 / 2 : ℚ)) = List.replicate 2 (7 / 10 : ℚ) :=
  (timestep_override_policy 20 20 200 2 (fun _ => (1 / 2 : ℚ))
    (fun _ => ⟨by norm_num, by norm_num⟩)).1 (by decide)

/-- Claim C3: resuming from a saved checkpoint restores model parameters,
optimizer state, scheduler state, epoch and step counter exactly, and the
continued run starts at the restored epoch with a step-counter sequence that
is consecutive from the restored value — no duplicate and no skipped steps. -/
theorem checkpoint_resume_roundtrip (st : TrainingState) (l : ℚ) (ne b : Nat) :
    resume_checkpoint (save_checkpoint st l) = st
    ∧ (runTraining (resume_checkpoint (save_checkpoint st l)).epoch ne b
          (resume_checkpoint (save_checkpoint st l)).step).2
        = (List.range ((ne - st.epoch) * b)).map (fun i => st.step + i + 1) := by
  refine ⟨rfl, ?_⟩
  simp [runTraining_eq, save_checkpoint, resume_checkpoint]

/-- Claim C8: the step counter increments by exactly one per training step and
is never reset: the run's counter values are the consecutive sequence above
the initial counter, the final counter adds exactly the number of steps, the
sequence is strictly increasing across epoch boundaries, and every value
exceeds the restored starting value. -/
theorem step_counter_monotone (se ne b sc : Nat) :
    (runTraining se ne b sc).2
      = (List.range ((ne - se) * b)).map (fun i => sc + i + 1)
    ∧ (runTraining se ne b sc).1 = sc + (ne - se) * b
    ∧ (runTraining se ne b sc).2.Pairwise (· < ·)
    ∧ ∀ s ∈ (runTraining se ne b sc).2, sc < s := by
  rw [runTraining_eq]
  refine ⟨rfl, rfl, ?_, ?_⟩
  · rw [List.pairwise_map]
    exact (List.pairwise_lt_range _).imp (fun hab => by omega)
  · intro s hs
    rw [List.mem_map] at hs
    obtain ⟨i, _, rfl⟩ := hs
    omega

/-- Claim C10: in a fresh run the counter value seen by the first processed
batch is 1; the timestep override is off at step 1 for any cadences greater
than 1; no cadence-gated effect with cadence greater than 1 fires at step 1;
and the first step at which the save cadence fires is exactly the cadence
value itself. -/
theorem first_step_counter_is_one (ne b c : Nat) (hnb : 0 < ne * b) :
    ((runTraining 0 ne b 0).2).head? = some 1
    ∧ (∀ nd ni, 1 < nd → 1 < ni → overrideStep 1 nd ni = false)
    ∧ (∀ c', 1 < c' → ¬ 1 % c' = 0)
    ∧ (0 < c → c ≤ ne * b →
        c ∈ (runTraining 0 ne b 0).2 ∧ c % c = 0
        ∧ ∀ s ∈ (runTraining 0 ne b 0).2, s % c = 0 → c ≤ s) := by
  have ht : (runTraining 0 ne b 0).2
      = (List.range (ne * b)).map (fun i => i + 1) := by
    rw [runTraining_eq]; simp
  refine ⟨?_, ?_, ?_, ?_⟩
  · obtain ⟨k, hk⟩ : ∃ k, ne * b = k + 1 := ⟨ne * b - 1, by omega⟩
    rw [ht, hk, List.range_succ_eq_map]
    simp
  · intro nd ni h1 h2
    simp [overrideStep, Nat.mod_eq_of_lt h1, Nat.mod_eq_of_lt h2]
  · intro c' h
    rw [Nat.mod_eq_of_lt h]
    omega
  · intro hc hcle
    refine ⟨?_, Nat.mod_self c, ?_⟩
    · rw [ht, List.mem_map]
      exact ⟨c - 1, by rw [List.mem_range]; omega, by omega⟩
    · intro s hs hmod
      rw [ht, List.mem_map] at hs
      obtain ⟨i, hi, rfl⟩ := hs
      by_contra hlt
      push_neg at hlt
      have he : (i + 1) % c = i + 1 := Nat.mod_eq_of_lt hlt
      omega

/-- Witness for C10 with one epoch of two batches and save cadence 2. -/
theorem first_step_counter_is_one_witness :
    ((runTraining 0 1 2 0).2).head? = some 1 ∧ 2 ∈ (runTraining 0 1 2 0).2 :=
  ⟨(first_step_counter_is_one 1 2 2 (by decide)).1,
   ((first_step_counter_is_one 1 2 2 (by decide)).2.2.2 (by decide) (by decide)).1⟩

/-- Claim C4: the cache build is idempotent — with the force flag unset and a
non-empty shard set in the cache directory, the build is skipped entirely:
zero encode invocations are performed and every shard file's content is left
unchanged. -/
theorem cache_build_idempotent (dir : List (String × List ℚ))
    (raws : List (List ℚ)) (encode : List ℚ → List ℚ) (bs : Nat)
    (hne : dir ≠ []) :
    cacheStep false dir raws encode bs = (dir, 0) :=
  cacheStep_skip dir raws encode bs hne

/-- Witness for C4: one existing shard, two raw batches, no force. -/
theorem cache_build_idempotent_witness :
    cacheStep false [(shardName 4 0, [(1 : ℚ)])] [[1], [2]] (fun l => l) 4
      = ([(shardName 4 0, [(1 : ℚ)])], 0) :=
  cache_build_idempotent [(shardName 4 0, [(1 : ℚ)])] [[1], [2]] (fun l => l) 4
    (List.cons_ne_nil _ _)

/-- Counterexample to C5 as stated: with one shard present out of two
expected and force unset, the build performs zero encode invocations and
leaves the partial one-shard set in place — it does not trigger a full
wholesale rebuild, and the incomplete shard set persists on disk. -/
theorem incomplete_cache_counterexample :
    (cacheStep false [(shardName 4 0, [(1 : ℚ)])] [[1], [2]] (fun l => l) 4).2 = 0
    ∧ ¬ ((cacheStep false [(shardName 4 0, [(1 : ℚ)])] [[1], [2]]
          (fun l => l) 4).2
        = ([[(1 : ℚ)], [2]] : List (List ℚ)).length)
    ∧ (cacheStep false [(shardName 4 0, [(1 : ℚ)])] [[1], [2]] (fun l => l) 4).1
        = [(shardName 4 0, [(1 : ℚ)])] := by
  refine ⟨?_, ?_, ?_⟩ <;>
    simp [cacheStep_skip _ _ _ _ (List.cons_ne_nil _ _)]

/-- Claim C5 (amended): a non-empty shard set — complete or not — with force
unset is treated as cached and the build is skipped entirely with zero encode
invocations; only an empty cache directory triggers the full rebuild, which
performs one encode invocation per raw batch.  Partial shard sets therefore
persist rather than being rebuilt. -/
theorem incomplete_cache_skipped (dir : List (String × List ℚ))
    (raws : List (List ℚ)) (encode : List ℚ → List ℚ) (bs : Nat) :
    (dir = [] → (cacheStep false dir raws encode bs).2 = raws.length)
    ∧ (dir ≠ [] → cacheStep false dir raws encode bs = (dir, 0)) := by
  constructor
  · intro h
    subst h
    unfold cacheStep
    rw [if_pos (by simp)]
    rw [cacheFold_count]
    simp [List.enum_length]
  · exact cacheStep_skip dir raws encode bs

/-- Witness for C5 (amended): an empty directory triggers a rebuild that
encodes both raw batches. -/
theorem incomplete_cache_skipped_witness :
    (cacheStep false [] [[(1 : ℚ)], [2]] (fun l => l) 4).2
      = ([[(1 : ℚ)], [2]] : List (List ℚ)).length :=
  (incomplete_cache_skipped [] [[(1 : ℚ)], [2]] (fun l => l) 4).1 rfl

/-- Claim C6: after recording k ≤ 100 values the loss average is exactly the
arithmetic mean of all of them; after k > 100 recordings it is the arithmetic
mean of only the most recent 100 recorded values. -/
theorem loss_average_mean (vs : List ℚ) (hne : vs ≠ []) :
    (vs.length ≤ N_loss_window →
        lossAverage (recordAll vs) = some (vs.sum / (vs.length : ℚ)))
    ∧ (N_loss_window < vs.length →
        lossAverage (recordAll vs)
          = some ((vs.drop (vs.length - N_loss_window)).sum
              / (N_loss_window : ℚ))) := by
  constructor
  · intro hk
    have he : recordAll vs = vs := by
      rw [recordAll_eq, Nat.sub_eq_zero_of_le hk, List.drop_zero]
    have h0 : vs.length ≠ 0 := fun h => hne (List.length_eq_zero.mp h)
    rw [he]
    simp only [lossAverage]
    rw [if_neg h0]
  · intro hk
    have hlen : (recordAll vs).length = N_loss_window := by
      rw [recordAll_length]
      omega
    have h0 : (recordAll vs).length ≠ 0 := by
      rw [hlen, N_loss_window_eq]
      omega
    simp only [lossAverage]
    rw [if_neg h0, hlen, recordAll_eq]

/-- Witness for C6: a single recorded value averages to itself. -/
theorem loss_average_mean_witness :
    lossAverage (recordAll [(3 : ℚ)])
      = some (List.sum [(3 : ℚ)] / ((List.length [(3 : ℚ)] : Nat) : ℚ)) :=
  (loss_average_mean [(3 : ℚ)] (List.cons_ne_nil _ _)).1
    (by rw [N_loss_window_eq]; simp)

/-- Claim C7: each loss window is a bounded FIFO of capacity 100 — after any
sequence of recordings its length is at most 100 and equals min(k, 100), and
its contents are exactly the most recent min(k, 100) recorded values (the
oldest entries having been evicted). -/
theorem loss_window_fifo (vs : List ℚ) :
    (recordAll vs).length ≤ N_loss_window
    ∧ (recordAll vs).length = min vs.length N_loss_window
    ∧ recordAll vs = vs.drop (vs.length - N_loss_window) := by
  refine ⟨?_, recordAll_length vs, recordAll_eq vs⟩
  rw [recordAll_length]
  omega

/-- Claim C9: the loss average fails only on an empty window; recording
always leaves a non-empty window, and in the loop's step ordering — both loss
components recorded before any average is read — both average computations of
a step succeed, so the empty-window division-by-zero branch is unreachable. -/
theorem loss_average_safe :
    (∀ w : List ℚ, lossAverage w = none ↔ w = [])
    ∧ (∀ (w : List ℚ) (v : ℚ), 0 < (recordLoss w v).length)
    ∧ ∀ (tw dw : List ℚ) (tv dv : ℚ),
        ((lossStep tw dw tv dv).2.1).isSome
        ∧ ((lossStep tw dw tv dv).2.2).isSome := by
  refine ⟨?_, recordLoss_length_pos, ?_⟩
  · intro w
    constructor
    · intro h
      by_contra hne
      have h0 : w.length ≠ 0 := fun hh => hne (List.length_eq_zero.mp hh)
      simp [lossAverage, h0] at h
    · intro h
      subst h
      simp [lossAverage]
  · intro tw dw tv dv
    have h1 : (recordLoss tw tv).length ≠ 0 :=
      Nat.pos_iff_ne_zero.mp (recordLoss_length_pos tw tv)
    have h2 : (recordLoss dw dv).length ≠ 0 :=
      Nat.pos_iff_ne_zero.mp (recordLoss_length_pos dw dv)
    exact ⟨by simp [lossStep, lossAverage, h1], by simp [lossStep, lossAverage, h2]⟩

end RefractTrain
